import Mathlib

/-!
Verification of the brute-force ZIP password search in `door_hacking.py`.

The development shallowly embeds the program's core (`_worker`,
`_pick_smallest_member`, the partitioning and final-report logic of
`unlock_zip`, and the `__main__` exit behaviour) as executable Lean
functions and proves the specification's claims about them.

Modelling conventions:
* Python strings are `List Char`; candidate passwords are built as
  `first :: tail`, exactly as `pwd_str = first + ''.join(tail)`.
* `zf.read(target_name, pwd=...)` is modelled by a pure function
  `zfread : List Char → ReadResult`, one constructor per exception
  class the code distinguishes (`success` = the read returns,
  `runtimeError` = wrong password, `notImplemented` = unsupported
  scheme, `otherError` = any other exception, which the code skips).
* The shared `found_evt` flag is modelled by an oracle
  `cancel : Nat → Bool` giving the value observed by the k-th
  `found_evt.is_set()` call of the worker (the worker performs one
  such check per first character and one per candidate).
* The two queues are modelled by the lists of values the worker puts
  on them (`deltas` for `progress_q`, `outcome` for `result_q`).
* `_worker` contains no logging call at all, so the `logs` component
  of a worker run is always the empty list.
-/

/-- Result of one `zf.read(target_name, pwd=...)` call, one constructor per
branch of the `try/except` in `_worker`. -/
inductive ReadResult where
  | success
  | runtimeError
  | notImplemented
  | otherError
deriving DecidableEq, Repr

/-- A message on `result_q`: `('FOUND', pwd)`, `('UNSUPPORTED', detail)` or
`('ERROR', detail)`. -/
inductive Outcome where
  | found (pwd : List Char)
  | unsupported
  | error
deriving DecidableEq, Repr

/-- Everything a single `_worker` process emits during one run:
the batched counts put on `progress_q`, the at-most-one message put on
`result_q`, whether it called `found_evt.set()`, the candidates it passed
to `zf.read` in order, and the log lines it wrote (none: `_worker` has no
logging call). -/
structure WOut where
  deltas  : List Nat
  outcome : Option Outcome
  evtSet  : Bool
  tried   : List (List Char)
  logs    : List String
deriving DecidableEq, Repr

/-- The worker's loop state: the local batched `attempts` counter, the
number of `found_evt.is_set()` checks performed so far, the progress
deltas sent so far and the candidates verified so far. -/
structure WState where
  attempts : Nat
  checks   : Nat
  deltas   : List Nat
  tried    : List (List Char)
deriving DecidableEq, Repr

/-- `itertools.product(A, repeat=n)` as a list of `n`-character strings, in
the same (lexicographic, first coordinate outermost) order. -/
def kpow (A : List Char) : Nat → List (List Char)
  | 0 => [[]]
  | n + 1 => A.flatMap fun c => (kpow A n).map fun t => c :: t

/-- The inner loop of `_worker` (`for tail in product(ALLOWED, repeat=LENGTH-1)`)
for one fixed first character. Returns the updated state if the tail loop
finishes normally, or the worker's final emissions if it returns early
(cancellation observed, password found, or unsupported scheme). -/
def runTail (zfread : List Char → ReadResult) (cancel : Nat → Bool)
    (reportEvery : Nat) (first : Char) :
    List (List Char) → WState → WState ⊕ WOut
  | [], s => Sum.inl s
  | tail :: rest, s =>
    if cancel s.checks then
      Sum.inr ⟨s.deltas, none, false, s.tried, []⟩
    else
      let pwd := first :: tail
      let a1 := s.attempts + 1
      let ds1 := if a1 % reportEvery = 0 then s.deltas ++ [a1] else s.deltas
      let a2 := if a1 % reportEvery = 0 then 0 else a1
      let tr := s.tried ++ [pwd]
      match zfread pwd with
      | .success =>
        Sum.inr ⟨if a2 ≠ 0 then ds1 ++ [a2] else ds1, some (.found pwd), true, tr, []⟩
      | .notImplemented =>
        Sum.inr ⟨if a2 ≠ 0 then ds1 ++ [a2] else ds1, some .unsupported, true, tr, []⟩
      | .runtimeError =>
        runTail zfread cancel reportEvery first rest ⟨a2, s.checks + 1, ds1, tr⟩
      | .otherError =>
        runTail zfread cancel reportEvery first rest ⟨a2, s.checks + 1, ds1, tr⟩

/-- The outer loop of `_worker` (`for first in prefixes`), including the
per-first-character cancellation check. -/
def runFirsts (zfread : List Char → ReadResult) (cancel : Nat → Bool)
    (reportEvery : Nat) (tails : List (List Char)) :
    List Char → WState → WState ⊕ WOut
  | [], s => Sum.inl s
  | first :: rest, s =>
    if cancel s.checks then
      Sum.inr ⟨s.deltas, none, false, s.tried, []⟩
    else
      match runTail zfread cancel reportEvery first tails
          ⟨s.attempts, s.checks + 1, s.deltas, s.tried⟩ with
      | Sum.inl s' => runFirsts zfread cancel reportEvery tails rest s'
      | Sum.inr out => Sum.inr out

/-- One `_worker` run.  `openOk` models whether `zipfile.ZipFile(zip_path)`
succeeds inside the worker; on failure the outer `except` emits an
`('ERROR', ...)` outcome with no attempts made.  On normal exhaustion of
the assigned first characters the remaining buffered count is flushed and
no outcome is emitted. -/
def workerRun (openOk : Bool) (zfread : List Char → ReadResult)
    (cancel : Nat → Bool) (firsts : List Char) (A : List Char)
    (suffixLen reportEvery : Nat) : WOut :=
  if openOk then
    match runFirsts zfread cancel reportEvery (kpow A suffixLen) firsts ⟨0, 0, [], []⟩ with
    | Sum.inl s =>
      ⟨if s.attempts ≠ 0 then s.deltas ++ [s.attempts] else s.deltas, none, false, s.tried, []⟩
    | Sum.inr out => out
  else
    ⟨[], some .error, true, [], []⟩

/-- The candidates a worker with first-character set `firsts` enumerates,
in the order `_worker` generates them. -/
def enumCandidates (firsts : List Char) (A : List Char) (n : Nat) : List (List Char) :=
  firsts.flatMap fun first => (kpow A n).map fun t => first :: t

/-- The worker loop state without the check counter, for runs in which the
worker never observes the cancellation signal set. -/
structure FState where
  attempts : Nat
  deltas   : List Nat
  tried    : List (List Char)
deriving DecidableEq, Repr

/-- The check-counter-erasing projection of a worker state. -/
def WState.core (s : WState) : FState := ⟨s.attempts, s.deltas, s.tried⟩

/-- The loop body of `_worker`'s candidate handling, without any
cancellation checks, over an already-flattened candidate list.  Used to
characterise runs in which the worker never observes the signal set. -/
def runFlat (zfread : List Char → ReadResult) (reportEvery : Nat) :
    List (List Char) → FState → FState ⊕ WOut
  | [], s => Sum.inl s
  | pwd :: rest, s =>
    let a1 := s.attempts + 1
    let ds1 := if a1 % reportEvery = 0 then s.deltas ++ [a1] else s.deltas
    let a2 := if a1 % reportEvery = 0 then 0 else a1
    let tr := s.tried ++ [pwd]
    match zfread pwd with
    | .success =>
      Sum.inr ⟨if a2 ≠ 0 then ds1 ++ [a2] else ds1, some (.found pwd), true, tr, []⟩
    | .notImplemented =>
      Sum.inr ⟨if a2 ≠ 0 then ds1 ++ [a2] else ds1, some .unsupported, true, tr, []⟩
    | .runtimeError => runFlat zfread reportEvery rest ⟨a2, ds1, tr⟩
    | .otherError => runFlat zfread reportEvery rest ⟨a2, ds1, tr⟩

/-- The alphabet `ALLOWED = 'abcdefghijklmnopqrstuvwxyz0123456789'`. -/
def ALLOWED : List Char :=
  ['a','b','c','d','e','f','g','h','i','j','k','l','m','n','o','p','q','r','s',
   't','u','v','w','x','y','z','0','1','2','3','4','5','6','7','8','9']

/-- The password length `LENGTH = 6`. -/
def LENGTH : Nat := 6

/-- The loop `for idx, ch in enumerate(prefixes): buckets[idx % workers].append(ch)`. -/
def assignAux (w : Nat) : Nat → List Char → List (List Char) → List (List Char)
  | _, [], bs => bs
  | idx, c :: rest, bs =>
    assignAux w (idx + 1) rest (bs.set (idx % w) (bs.getD (idx % w) [] ++ [c]))

/-- Round-robin assignment of first characters to `w` worker buckets
(`unlock_zip` lines 132-135). -/
def assignBuckets (w : Nat) (A : List Char) : List (List Char) :=
  assignAux w 0 A (List.replicate w [])

/-- The buckets for which a worker process is actually started
(`if not bucket: continue`). -/
def startedBuckets (w : Nat) (A : List Char) : List (List Char) :=
  (assignBuckets w A).filter fun b => !b.isEmpty

/-- The deterministic schedule of the concurrent run modelled here: the
started workers run to completion in start order; once some worker has set
`found_evt`, every later worker observes the signal already set (constant
oracle), so it stops at its first check.  This is one admissible schedule
of the real system (cancellation is cooperative and set-once). -/
def runStarted (zfread : List Char → ReadResult) (re : Nat) (A : List Char)
    (n : Nat) : List (List Char) → Bool → List WOut
  | [], _ => []
  | b :: rest, cancelled =>
    let out := workerRun true zfread (fun _ => cancelled) b A n re
    out :: runStarted zfread re A n rest (cancelled || out.evtSet)

/-- The emissions of all started workers for a run of `unlock_zip` with
`w` requested workers, under the schedule of `runStarted`. -/
def startedOutputs (zfread : List Char → ReadResult) (re : Nat) (A : List Char)
    (n w : Nat) : List WOut :=
  runStarted zfread re A n (startedBuckets w A) false

/-- `i.filename.endswith('/')` for a name given as its character list: a
nonempty name whose last character is `'/'`. -/
def nameEndsWithSlash (name : List Char) : Bool :=
  decide (name.getLast? = some '/')

/-- `_pick_smallest_member`: among entries whose name does not end with
`'/'`, the name of the first entry of minimal `file_size` (Python's `min`
keeps the first minimum); `none` if there is no such entry. -/
def pickSmallestMember (entries : List (List Char × Nat)) : Option (List Char) :=
  let infos := entries.filter fun e => !nameEndsWithSlash e.1
  match infos with
  | [] => none
  | e :: rest => some (rest.foldl (fun best x => if x.2 < best.2 then x else best) e).1

/-- The final log line `unlock_zip` emits, one constructor per terminal
condition. -/
inductive FinalReport where
  | success (pwd : List Char)
  | failUnsupported
  | failError
  | failExhausted
  | failNoEntry
deriving DecidableEq, Repr

/-- The observable result of one `unlock_zip` call: its return value, its
final log line, the content written to `password.txt` (if any), whether
`extractall` was invoked, the accumulated attempt total, and how many
worker processes were started. -/
structure UnlockResult where
  ret : Option (List Char)
  report : FinalReport
  passwordFile : Option (List Char)
  extracted : Bool
  totalAttempts : Nat
  workersStarted : Nat
deriving DecidableEq, Repr

/-- `unlock_zip`.  `zipEntries` is the archive's entry list
(`name × file_size`), `none` when the file is missing, in which case the
`FileNotFoundError` raised inside `_pick_smallest_member` propagates
uncaught (`Except.error`).  The orchestrator's queue draining is lossless
(the final drain loop runs after the workers are joined), so the attempt
total is the sum of all deltas the started workers emitted.  Note the code
tests `if not target_name:` and `if found_pwd:`, which are also taken for
empty strings; both branches are modelled as written. -/
def unlockModel (zipEntries : Option (List (List Char × Nat)))
    (zfread : List Char → ReadResult) (w re : Nat) (A : List Char) (n : Nat) :
    Except String UnlockResult :=
  match zipEntries with
  | none => .error "FileNotFoundError"
  | some entries =>
    match pickSmallestMember entries with
    | none => .ok ⟨none, .failNoEntry, none, false, 0, 0⟩
    | some t =>
      if t = [] then .ok ⟨none, .failNoEntry, none, false, 0, 0⟩
      else
        let outs := startedOutputs zfread re A n w
        let total := (outs.map fun o => o.deltas.sum).sum
        let started := (startedBuckets w A).length
        match (outs.findSome? fun o => o.outcome : Option Outcome) with
        | some (.found p) =>
          if p.isEmpty then .ok ⟨none, .failExhausted, none, false, total, started⟩
          else .ok ⟨some p, .success p, some (p ++ ['\n']), true, total, started⟩
        | some .unsupported => .ok ⟨none, .failUnsupported, none, false, total, started⟩
        | some .error => .ok ⟨none, .failError, none, false, total, started⟩
        | none => .ok ⟨none, .failExhausted, none, false, total, started⟩

/-- The `__main__` block: it calls `unlock_zip` and ignores its return
value, so the interpreter exits 0 on any normal return; an exception that
escapes `unlock_zip` (for instance `FileNotFoundError` for a missing
archive) is uncaught and makes the interpreter exit 1. -/
def mainModel (zipEntries : Option (List (List Char × Nat)))
    (zfread : List Char → ReadResult) (w re : Nat) (A : List Char) (n : Nat) : Nat :=
  match unlockModel zipEntries zfread w re A n with
  | .ok _ => 0
  | .error _ => 1

lemma runFlat_append (z : List Char → ReadResult) (re : Nat) :
    ∀ (l₁ l₂ : List (List Char)) (s : FState),
      runFlat z re (l₁ ++ l₂) s =
        match runFlat z re l₁ s with
        | Sum.inl s' => runFlat z re l₂ s'
        | Sum.inr out => Sum.inr out := by
  intro l₁
  induction l₁ with
  | nil => intro l₂ s; rfl
  | cons pwd rest ih =>
    intro l₂ s
    cases hz : z pwd <;>
      simp only [List.cons_append, runFlat, hz, ih] <;>
      first
      | rfl
      | exact ih l₂ _

lemma runTail_no_cancel (z : List Char → ReadResult) (re : Nat) (first : Char) :
    ∀ (tails : List (List Char)) (s : WState),
      Sum.map WState.core id (runTail z (fun _ => false) re first tails s) =
        runFlat z re (tails.map fun t => first :: t) s.core := by
  intro tails
  induction tails with
  | nil => intro s; rfl
  | cons t rest ih =>
    intro s
    cases hz : z (first :: t) <;>
      simp only [runTail, runFlat, List.map_cons, hz, Sum.map_inr, Sum.map_inl, id_eq,
        Bool.false_eq_true, if_false, WState.core, ih]

lemma runFirsts_no_cancel (z : List Char → ReadResult) (re : Nat) (tails : List (List Char)) :
    ∀ (firsts : List Char) (s : WState),
      Sum.map WState.core id (runFirsts z (fun _ => false) re tails firsts s) =
        runFlat z re (firsts.flatMap fun f => tails.map fun t => f :: t) s.core := by
  intro firsts
  induction firsts with
  | nil => intro s; rfl
  | cons f rest ih =>
    intro s
    have htail := runTail_no_cancel z re f tails ⟨s.attempts, s.checks + 1, s.deltas, s.tried⟩
    rw [List.flatMap_cons, runFlat_append]
    simp only [runFirsts, Bool.false_eq_true, if_false]
    cases hr : runTail z (fun _ => false) re f tails
        ⟨s.attempts, s.checks + 1, s.deltas, s.tried⟩ with
    | inl s' =>
      rw [hr] at htail
      simp only [Sum.map_inl, id] at htail
      rw [show ((⟨s.attempts, s.checks + 1, s.deltas, s.tried⟩ : WState).core) = s.core from rfl]
        at htail
      rw [← htail]
      exact ih s'
    | inr out =>
      rw [hr] at htail
      simp only [Sum.map_inr, id] at htail
      rw [show ((⟨s.attempts, s.checks + 1, s.deltas, s.tried⟩ : WState).core) = s.core from rfl]
        at htail
      rw [← htail]
      rfl

lemma workerRun_no_cancel (z : List Char → ReadResult) (b A : List Char) (n re : Nat) :
    workerRun true z (fun _ => false) b A n re =
      match runFlat z re (enumCandidates b A n) ⟨0, [], []⟩ with
      | Sum.inl s =>
        ⟨if s.attempts ≠ 0 then s.deltas ++ [s.attempts] else s.deltas, none, false, s.tried, []⟩
      | Sum.inr out => out := by
  have h := runFirsts_no_cancel z re (kpow A n) b ⟨0, 0, [], []⟩
  rw [show ((⟨0, 0, [], []⟩ : WState).core) = (⟨0, [], []⟩ : FState) from rfl] at h
  rw [show enumCandidates b A n = b.flatMap fun f => (kpow A n).map fun t => f :: t from rfl]
  simp only [workerRun, if_true]
  cases hr : runFirsts z (fun _ => false) re (kpow A n) b ⟨0, 0, [], []⟩ with
  | inl s' =>
    rw [hr] at h
    simp only [Sum.map_inl, id] at h
    rw [← h]
    rfl
  | inr out =>
    rw [hr] at h
    simp only [Sum.map_inr, id] at h
    rw [← h]

lemma flushIf_sum (ds : List Nat) (a : Nat) :
    (if a ≠ 0 then ds ++ [a] else ds).sum = ds.sum + a := by
  by_cases h : a = 0 <;> simp [h]

lemma stepFlush_sum (ds : List Nat) (a re : Nat) :
    (if (a + 1) % re = 0 then ds ++ [a + 1] else ds).sum +
      (if (a + 1) % re = 0 then 0 else a + 1) = ds.sum + (a + 1) := by
  by_cases h : (a + 1) % re = 0 <;> simp [h]

/-- If the flat loop runs off the end of its candidate list, every
candidate was tried in order, the delta total plus the still-buffered
counter accounts for exactly one verification per candidate, and every
verification came back as a wrong password or a skipped error. -/
lemma runFlat_inl (z : List Char → ReadResult) (re : Nat) :
    ∀ (l : List (List Char)) (s s' : FState),
      runFlat z re l s = Sum.inl s' →
      s'.tried = s.tried ++ l ∧
      s'.deltas.sum + s'.attempts = s.deltas.sum + s.attempts + l.length ∧
      ∀ q ∈ l, z q = .runtimeError ∨ z q = .otherError := by
  intro l
  induction l with
  | nil =>
    intro s s' h
    cases h
    simp
  | cons pwd rest ih =>
    intro s s' h
    cases hz : z pwd <;> rw [runFlat, hz] at h
    case success => cases h
    case notImplemented => cases h
    case runtimeError =>
      obtain ⟨h1, h2, h3⟩ := ih _ _ h
      refine ⟨by simpa using h1, ?_, ?_⟩
      · rw [h2]
        have := stepFlush_sum s.deltas s.attempts re
        simp only [List.length_cons]
        omega
      · intro q hq
        rcases List.mem_cons.mp hq with rfl | hq'
        · exact Or.inl hz
        · exact h3 q hq'
    case otherError =>
      obtain ⟨h1, h2, h3⟩ := ih _ _ h
      refine ⟨by simpa using h1, ?_, ?_⟩
      · rw [h2]
        have := stepFlush_sum s.deltas s.attempts re
        simp only [List.length_cons]
        omega
      · intro q hq
        rcases List.mem_cons.mp hq with rfl | hq'
        · exact Or.inr hz
        · exact h3 q hq'

/-- If the flat loop returns early, it did so at the first candidate whose
verification succeeded or hit the unsupported scheme; the candidates tried
are exactly those up to and including that one, the emitted deltas sum to
one per tried candidate (the buffered count is flushed), the event flag was
set, and no log line was written. -/
lemma runFlat_inr (z : List Char → ReadResult) (re : Nat) :
    ∀ (l : List (List Char)) (s : FState) (out : WOut),
      runFlat z re l s = Sum.inr out →
      ∃ l₁ pwd l₂, l = l₁ ++ pwd :: l₂ ∧
        out.tried = s.tried ++ (l₁ ++ [pwd]) ∧
        out.deltas.sum = s.deltas.sum + s.attempts + (l₁.length + 1) ∧
        out.evtSet = true ∧ out.logs = [] ∧
        (∀ q ∈ l₁, z q = .runtimeError ∨ z q = .otherError) ∧
        ((z pwd = .success ∧ out.outcome = some (.found pwd)) ∨
         (z pwd = .notImplemented ∧ out.outcome = some .unsupported)) := by
  intro l
  induction l with
  | nil => intro s out h; cases h
  | cons pwd rest ih =>
    intro s out h
    cases hz : z pwd <;> rw [runFlat, hz] at h
    case success =>
      cases h
      refine ⟨[], pwd, rest, rfl, by simp, ?_, rfl, rfl, by simp, Or.inl ⟨hz, rfl⟩⟩
      have h1 := flushIf_sum (if (s.attempts + 1) % re = 0 then s.deltas ++ [s.attempts + 1]
        else s.deltas) (if (s.attempts + 1) % re = 0 then 0 else s.attempts + 1)
      have h2 := stepFlush_sum s.deltas s.attempts re
      simp only [List.length_nil]
      omega
    case notImplemented =>
      cases h
      refine ⟨[], pwd, rest, rfl, by simp, ?_, rfl, rfl, by simp, Or.inr ⟨hz, rfl⟩⟩
      have h1 := flushIf_sum (if (s.attempts + 1) % re = 0 then s.deltas ++ [s.attempts + 1]
        else s.deltas) (if (s.attempts + 1) % re = 0 then 0 else s.attempts + 1)
      have h2 := stepFlush_sum s.deltas s.attempts re
      simp only [List.length_nil]
      omega
    case runtimeError =>
      obtain ⟨l₁, p, l₂, e1, e2, e3, e4, e5, e6, e7⟩ := ih _ _ h
      refine ⟨pwd :: l₁, p, l₂, by rw [e1]; rfl, by simpa using e2, ?_, e4, e5, ?_, e7⟩
      · rw [e3]
        have := stepFlush_sum s.deltas s.attempts re
        simp only [List.length_cons]
        omega
      · intro q hq
        rcases List.mem_cons.mp hq with rfl | hq'
        · exact Or.inl hz
        · exact e6 q hq'
    case otherError =>
      obtain ⟨l₁, p, l₂, e1, e2, e3, e4, e5, e6, e7⟩ := ih _ _ h
      refine ⟨pwd :: l₁, p, l₂, by rw [e1]; rfl, by simpa using e2, ?_, e4, e5, ?_, e7⟩
      · rw [e3]
        have := stepFlush_sum s.deltas s.attempts re
        simp only [List.length_cons]
        omega
      · intro q hq
        rcases List.mem_cons.mp hq with rfl | hq'
        · exact Or.inr hz
        · exact e6 q hq'

lemma findSome?_eq_some_mem {α β : Type} (l : List α) (f : α → Option β) (b : β)
    (h : l.findSome? f = some b) : ∃ a, a ∈ l ∧ f a = some b := by
  induction l with
  | nil => simp [List.findSome?] at h
  | cons x xs ih =>
    rw [List.findSome?_cons] at h
    cases hf : f x with
    | some v =>
      simp only [hf] at h
      exact ⟨x, List.mem_cons_self .., by rw [hf, h]⟩
    | none =>
      simp only [hf] at h
      obtain ⟨a, ha, hfa⟩ := ih h
      exact ⟨a, List.mem_cons_of_mem _ ha, hfa⟩

lemma findSome?_eq_none_of_all {α β : Type} (l : List α) (f : α → Option β)
    (h : ∀ a ∈ l, f a = none) : l.findSome? f = none := by
  induction l with
  | nil => rfl
  | cons x xs ih =>
    rw [List.findSome?_cons, h x (List.mem_cons_self ..)]
    exact ih fun a ha => h a (List.mem_cons_of_mem _ ha)

/-- A worker that never observes the cancellation signal reports, over the
whole run, exactly one counted attempt per `zf.read` call it made: the sum
of its progress deltas equals the number of candidates it tried. -/
lemma worker_conservation (z : List Char → ReadResult) (b A : List Char) (n re : Nat) :
    (workerRun true z (fun _ => false) b A n re).deltas.sum =
      (workerRun true z (fun _ => false) b A n re).tried.length := by
  rw [workerRun_no_cancel]
  cases h : runFlat z re (enumCandidates b A n) ⟨0, [], []⟩ with
  | inl s' =>
    obtain ⟨h1, h2, -⟩ := runFlat_inl z re _ _ _ h
    simp only [flushIf_sum]
    simp only [List.nil_append, List.sum_nil] at h1 h2
    rw [h1]
    omega
  | inr out =>
    obtain ⟨l₁, pwd, l₂, -, e2, e3, -, -, -, -⟩ := runFlat_inr z re _ _ _ h
    simp only [List.nil_append, List.sum_nil] at e2 e3
    rw [e2, e3]
    simp

/-- A worker that never observes the cancellation signal and whose every
`zf.read` raises `RuntimeError` or a skipped error exhausts its whole
assigned candidate list, emits no outcome, never sets the event, counts
every attempt, and writes no log line. -/
lemma worker_exhaust (z : List Char → ReadResult) (b A : List Char) (n re : Nat)
    (hz : ∀ p, z p = .runtimeError ∨ z p = .otherError) :
    (workerRun true z (fun _ => false) b A n re).outcome = none ∧
    (workerRun true z (fun _ => false) b A n re).evtSet = false ∧
    (workerRun true z (fun _ => false) b A n re).tried = enumCandidates b A n ∧
    (workerRun true z (fun _ => false) b A n re).deltas.sum = (enumCandidates b A n).length ∧
    (workerRun true z (fun _ => false) b A n re).logs = [] := by
  rw [workerRun_no_cancel]
  cases h : runFlat z re (enumCandidates b A n) ⟨0, [], []⟩ with
  | inl s' =>
    obtain ⟨h1, h2, -⟩ := runFlat_inl z re _ _ _ h
    simp only [List.nil_append, List.sum_nil] at h1 h2
    refine ⟨rfl, rfl, h1, ?_, rfl⟩
    simp only [flushIf_sum]
    simpa using h2
  | inr out =>
    obtain ⟨l₁, pwd, l₂, -, -, -, -, -, -, e7⟩ := runFlat_inr z re _ _ _ h
    rcases e7 with ⟨hzp, -⟩ | ⟨hzp, -⟩ <;> rcases hz pwd with h' | h' <;> rw [hzp] at h' <;>
      cases h'

/-- A worker whose cancellation oracle is constantly set stops at its very
first check: it tries nothing, emits nothing, and does not set the event. -/
lemma worker_cancelled (z : List Char → ReadResult) (b A : List Char) (n re : Nat) :
    workerRun true z (fun _ => true) b A n re = ⟨[], none, false, [], []⟩ := by
  cases b with
  | nil => rfl
  | cons f rest => rfl


/-- An early return of the inner loop either observed the cancellation
signal and carries no outcome, or its outcome is explained by the result
of `zf.read` on the last candidate tried. -/
lemma runTail_inr_outcome (z : List Char → ReadResult) (cancel : Nat → Bool) (re : Nat)
    (first : Char) :
    ∀ (tails : List (List Char)) (s : WState) (out : WOut),
      runTail z cancel re first tails s = Sum.inr out →
      out.outcome = none ∨
      ∃ p, p ≠ [] ∧ out.tried.getLast? = some p ∧
        ((out.outcome = some (.found p) ∧ z p = .success) ∨
         (out.outcome = some .unsupported ∧ z p = .notImplemented)) := by
  intro tails
  induction tails with
  | nil => intro s out h; cases h
  | cons t rest ih =>
    intro s out h
    rw [runTail] at h
    by_cases hc : cancel s.checks
    · rw [if_pos hc] at h
      cases h
      exact Or.inl rfl
    · rw [if_neg hc] at h
      cases hz : z (first :: t) <;> simp only [hz] at h
      · cases h
        exact Or.inr ⟨first :: t, by simp, by simp, Or.inl ⟨rfl, hz⟩⟩
      · exact ih _ _ h
      · cases h
        exact Or.inr ⟨first :: t, by simp, by simp, Or.inr ⟨rfl, hz⟩⟩
      · exact ih _ _ h

/-- Lifts `runTail_inr_outcome` through the outer loop over first
characters. -/
lemma runFirsts_inr_outcome (z : List Char → ReadResult) (cancel : Nat → Bool) (re : Nat)
    (tails : List (List Char)) :
    ∀ (firsts : List Char) (s : WState) (out : WOut),
      runFirsts z cancel re tails firsts s = Sum.inr out →
      out.outcome = none ∨
      ∃ p, p ≠ [] ∧ out.tried.getLast? = some p ∧
        ((out.outcome = some (.found p) ∧ z p = .success) ∨
         (out.outcome = some .unsupported ∧ z p = .notImplemented)) := by
  intro firsts
  induction firsts with
  | nil => intro s out h; cases h
  | cons f rest ih =>
    intro s out h
    rw [runFirsts] at h
    by_cases hc : cancel s.checks
    · rw [if_pos hc] at h
      cases h
      exact Or.inl rfl
    · rw [if_neg hc] at h
      cases hr : runTail z cancel re f tails
          ⟨s.attempts, s.checks + 1, s.deltas, s.tried⟩ with
      | inl s' =>
        rw [hr] at h
        exact ih _ _ h
      | inr out' =>
        rw [hr] at h
        cases h
        exact runTail_inr_outcome z cancel re f tails _ _ hr

/-- Any outcome a worker emits is caused by the `zf.read` result on the
last candidate it tried; a worker that stopped because it observed the
cancellation signal emits no outcome. -/
lemma worker_outcome_cause (z : List Char → ReadResult) (cancel : Nat → Bool)
    (b A : List Char) (n re : Nat) :
    (workerRun true z cancel b A n re).outcome = none ∨
    ∃ p, p ≠ [] ∧ (workerRun true z cancel b A n re).tried.getLast? = some p ∧
      (((workerRun true z cancel b A n re).outcome = some (.found p) ∧ z p = .success) ∨
       ((workerRun true z cancel b A n re).outcome = some .unsupported ∧
         z p = .notImplemented)) := by
  rw [workerRun, if_pos rfl]
  cases hr : runFirsts z cancel re (kpow A n) b ⟨0, 0, [], []⟩ with
  | inl s' => exact Or.inl rfl
  | inr out => exact runFirsts_inr_outcome z cancel re (kpow A n) b _ _ hr

/-- The number of candidates tried, for either kind of loop result. -/
def resTriedLen : WState ⊕ WOut → Nat
  | Sum.inl s => s.tried.length
  | Sum.inr o => o.tried.length

lemma runTail_inl_growth (z : List Char → ReadResult) (cancel : Nat → Bool) (re : Nat)
    (first : Char) :
    ∀ (tails : List (List Char)) (s s' : WState),
      runTail z cancel re first tails s = Sum.inl s' →
      s'.tried.length + s.checks ≤ s.tried.length + s'.checks := by
  intro tails
  induction tails with
  | nil =>
    intro s s' h
    cases h
    omega
  | cons t rest ih =>
    intro s s' h
    rw [runTail] at h
    by_cases hc : cancel s.checks
    · rw [if_pos hc] at h; cases h
    · rw [if_neg hc] at h
      cases hz : z (first :: t) <;> simp only [hz] at h
      · cases h
      · have h2 : s'.tried.length + (s.checks + 1) ≤ (s.tried ++ [first :: t]).length +
            s'.checks := ih _ _ h
        simp only [List.length_append, List.length_cons, List.length_nil] at h2
        omega
      · cases h
      · have h2 : s'.tried.length + (s.checks + 1) ≤ (s.tried ++ [first :: t]).length +
            s'.checks := ih _ _ h
        simp only [List.length_append, List.length_cons, List.length_nil] at h2
        omega

lemma runTail_inl_checks_le (z : List Char → ReadResult) (cancel : Nat → Bool) (re : Nat)
    (first : Char) (N : Nat) (hN : cancel N = true) :
    ∀ (tails : List (List Char)) (s s' : WState), s.checks ≤ N →
      runTail z cancel re first tails s = Sum.inl s' → s'.checks ≤ N := by
  intro tails
  induction tails with
  | nil =>
    intro s s' hle h
    cases h
    exact hle
  | cons t rest ih =>
    intro s s' hle h
    rw [runTail] at h
    by_cases hc : cancel s.checks
    · rw [if_pos hc] at h; cases h
    · rw [if_neg hc] at h
      have hlt : s.checks < N := by
        rcases Nat.lt_or_ge s.checks N with h' | h'
        · exact h'
        · rw [le_antisymm hle h'] at hc
          exact absurd hN hc
      cases hz : z (first :: t) <;> simp only [hz] at h
      · cases h
      · exact ih _ _ (show s.checks + 1 ≤ N from hlt) h
      · cases h
      · exact ih _ _ (show s.checks + 1 ≤ N from hlt) h

lemma runTail_tried_bound (z : List Char → ReadResult) (cancel : Nat → Bool) (re : Nat)
    (first : Char) (N : Nat) (hN : cancel N = true) :
    ∀ (tails : List (List Char)) (s : WState), s.checks ≤ N →
      resTriedLen (runTail z cancel re first tails s) + s.checks ≤ s.tried.length + N := by
  intro tails
  induction tails with
  | nil =>
    intro s hle
    show (Sum.inl s : WState ⊕ WOut).elim (fun s => s.tried.length) (fun o => o.tried.length) +
        s.checks ≤ s.tried.length + N
    simp only [Sum.elim_inl]
    omega
  | cons t rest ih =>
    intro s hle
    rw [runTail]
    by_cases hc : cancel s.checks
    · rw [if_pos hc]
      show (s.tried.length) + s.checks ≤ s.tried.length + N
      omega
    · rw [if_neg hc]
      have hlt : s.checks < N := by
        rcases Nat.lt_or_ge s.checks N with h' | h'
        · exact h'
        · rw [le_antisymm hle h'] at hc
          exact absurd hN hc
      cases hz : z (first :: t) <;> simp only [hz]
      · show (s.tried ++ [first :: t]).length + s.checks ≤ s.tried.length + N
        simp only [List.length_append, List.length_cons, List.length_nil]
        omega
      · have h2 : resTriedLen (runTail z cancel re first rest
            ⟨if (s.attempts + 1) % re = 0 then 0 else s.attempts + 1, s.checks + 1,
             if (s.attempts + 1) % re = 0 then s.deltas ++ [s.attempts + 1] else s.deltas,
             s.tried ++ [first :: t]⟩) + (s.checks + 1) ≤
              (s.tried ++ [first :: t]).length + N :=
          ih _ (show s.checks + 1 ≤ N from hlt)
        simp only [List.length_append, List.length_cons, List.length_nil] at h2
        omega
      · show (s.tried ++ [first :: t]).length + s.checks ≤ s.tried.length + N
        simp only [List.length_append, List.length_cons, List.length_nil]
        omega
      · have h2 : resTriedLen (runTail z cancel re first rest
            ⟨if (s.attempts + 1) % re = 0 then 0 else s.attempts + 1, s.checks + 1,
             if (s.attempts + 1) % re = 0 then s.deltas ++ [s.attempts + 1] else s.deltas,
             s.tried ++ [first :: t]⟩) + (s.checks + 1) ≤
              (s.tried ++ [first :: t]).length + N :=
          ih _ (show s.checks + 1 ≤ N from hlt)
        simp only [List.length_append, List.length_cons, List.length_nil] at h2
        omega

lemma runFirsts_tried_bound (z : List Char → ReadResult) (cancel : Nat → Bool) (re : Nat)
    (tails : List (List Char)) (N : Nat) (hN : cancel N = true) :
    ∀ (firsts : List Char) (s : WState), s.checks ≤ N →
      resTriedLen (runFirsts z cancel re tails firsts s) + s.checks ≤ s.tried.length + N := by
  intro firsts
  induction firsts with
  | nil =>
    intro s hle
    show s.tried.length + s.checks ≤ s.tried.length + N
    omega
  | cons f rest ih =>
    intro s hle
    rw [runFirsts]
    by_cases hc : cancel s.checks
    · rw [if_pos hc]
      show s.tried.length + s.checks ≤ s.tried.length + N
      omega
    · rw [if_neg hc]
      have hlt : s.checks < N := by
        rcases Nat.lt_or_ge s.checks N with h' | h'
        · exact h'
        · rw [le_antisymm hle h'] at hc
          exact absurd hN hc
      cases hr : runTail z cancel re f tails
          ⟨s.attempts, s.checks + 1, s.deltas, s.tried⟩ with
      | inl s' =>
        have hg : s'.tried.length + (s.checks + 1) ≤ s.tried.length + s'.checks :=
          runTail_inl_growth z cancel re f tails _ _ hr
        have hcl : s'.checks ≤ N :=
          runTail_inl_checks_le z cancel re f N hN tails _ _
            (show s.checks + 1 ≤ N from hlt) hr
        have hb := ih s' hcl
        show resTriedLen (runFirsts z cancel re tails rest s') + s.checks ≤
          s.tried.length + N
        omega
      | inr out =>
        have hb : resTriedLen (runTail z cancel re f tails
            ⟨s.attempts, s.checks + 1, s.deltas, s.tried⟩) + (s.checks + 1) ≤
              s.tried.length + N :=
          runTail_tried_bound z cancel re f N hN tails _ (show s.checks + 1 ≤ N from hlt)
        rw [hr] at hb
        show out.tried.length + s.checks ≤ s.tried.length + N
        have hb' : out.tried.length + (s.checks + 1) ≤ s.tried.length + N := hb
        omega

/-- A worker performs at most `N` verification calls when the cancellation
signal is observed set from its `N`-th `found_evt.is_set()` check on:
every `zf.read` call is preceded by a fresh check that came back `False`. -/
lemma worker_tried_bound (z : List Char → ReadResult) (cancel : Nat → Bool)
    (b A : List Char) (n re N : Nat) (hN : cancel N = true) :
    (workerRun true z cancel b A n re).tried.length ≤ N := by
  have h := runFirsts_tried_bound z cancel re (kpow A n) N hN b ⟨0, 0, [], []⟩ (Nat.zero_le N)
  rw [workerRun, if_pos rfl]
  cases hr : runFirsts z cancel re (kpow A n) b ⟨0, 0, [], []⟩ with
  | inl s' =>
    rw [hr] at h
    have h' : s'.tried.length + 0 ≤ 0 + N := h
    simpa using h'
  | inr out =>
    rw [hr] at h
    have h' : out.tried.length + 0 ≤ 0 + N := h
    simpa using h'

lemma kpow_length (A : List Char) : ∀ n, (kpow A n).length = A.length ^ n := by
  intro n
  induction n with
  | zero => rfl
  | succ m ih =>
    rw [kpow, List.length_flatMap]
    simp only [Function.comp_def]
    have : (A.map fun c => ((kpow A m).map fun t => c :: t).length) =
        A.map fun _ => A.length ^ m := by
      refine List.map_congr_left fun c _ => ?_
      rw [List.length_map, ih]
    rw [this, List.map_const', List.sum_replicate, smul_eq_mul, pow_succ, Nat.mul_comm]

lemma kpow_ne_nil (A : List Char) (hA : A ≠ []) : ∀ n, kpow A n ≠ [] := by
  intro n
  have h1 : 0 < A.length := List.length_pos.mpr hA
  have h2 : 0 < (kpow A n).length := by
    rw [kpow_length]
    exact Nat.pos_pow_of_pos n h1
  exact List.length_pos.mp h2

lemma kpow_nodup (A : List Char) (hA : A.Nodup) : ∀ n, (kpow A n).Nodup := by
  intro n
  induction n with
  | zero => simp [kpow]
  | succ m ih =>
    rw [kpow, List.nodup_flatMap]
    constructor
    · intro c _
      exact ih.map fun t t' h => by injection h
    · refine hA.imp ?_
      intro c c' hne x hx hx'
      obtain ⟨t, -, rfl⟩ := List.mem_map.mp hx
      obtain ⟨t', -, ht'⟩ := List.mem_map.mp hx'
      exact hne (by injection ht'.symm)

lemma enumCandidates_length (firsts A : List Char) (n : Nat) :
    (enumCandidates firsts A n).length = firsts.length * A.length ^ n := by
  rw [enumCandidates, List.length_flatMap]
  simp only [Function.comp_def]
  have : (firsts.map fun first => ((kpow A n).map fun t => first :: t).length) =
      firsts.map fun _ => A.length ^ n := by
    refine List.map_congr_left fun c _ => ?_
    rw [List.length_map, kpow_length]
  rw [this, List.map_const', List.sum_replicate, smul_eq_mul]

/-- Appending one block per character of a sorted character list, where
each block consists of the character consed onto each element of a fixed
lexicographically sorted tail list, yields a lexicographically sorted
list. -/
lemma sorted_flatMap_cons (T : List (List Char)) (hT : T.Sorted (List.Lex (· < ·))) :
    ∀ l : List Char, l.Sorted (· < ·) →
      (l.flatMap fun c => T.map fun t => c :: t).Sorted (List.Lex (· < ·)) := by
  intro l
  induction l with
  | nil => intro _; simp [List.Sorted]
  | cons c rest ih =>
    intro hl
    rw [List.flatMap_cons]
    have hrest : rest.Sorted (· < ·) := hl.of_cons
    have hhead : ∀ c' ∈ rest, c < c' := List.rel_of_sorted_cons hl
    rw [List.Sorted, List.pairwise_append]
    refine ⟨?_, ih hrest, ?_⟩
    · rw [List.pairwise_map]
      exact hT.imp fun h => List.Lex.cons h
    · intro x hx y hy
      obtain ⟨t, -, rfl⟩ := List.mem_map.mp hx
      obtain ⟨c', hc', hy'⟩ := List.mem_flatMap.mp hy
      obtain ⟨t', -, rfl⟩ := List.mem_map.mp hy'
      exact List.Lex.rel (hhead c' hc')

lemma kpow_sorted (A : List Char) (hA : A.Sorted (· < ·)) :
    ∀ n, (kpow A n).Sorted (List.Lex (· < ·)) := by
  intro n
  induction n with
  | zero => simp [kpow, List.Sorted]
  | succ m ih => exact sorted_flatMap_cons (kpow A m) ih A hA

/-- The candidate list of one worker is lexicographically sorted whenever
its assigned first characters are listed in increasing order. -/
lemma enumCandidates_sorted (firsts A : List Char) (n : Nat)
    (hf : firsts.Sorted (· < ·)) (hA : A.Sorted (· < ·)) :
    (enumCandidates firsts A n).Sorted (List.Lex (· < ·)) :=
  sorted_flatMap_cons (kpow A n) (kpow_sorted A hA n) firsts hf

lemma assignAux_length (w : Nat) :
    ∀ (l : List Char) (idx : Nat) (bs : List (List Char)),
      (assignAux w idx l bs).length = bs.length := by
  intro l
  induction l with
  | nil => intro idx bs; rfl
  | cons c rest ih =>
    intro idx bs
    rw [assignAux, ih, List.length_set]

lemma flatten_set_getD (x : Char) :
    ∀ (bs : List (List Char)) (k : Nat), k < bs.length →
      ((bs.set k (bs.getD k [] ++ [x])).flatten).Perm (bs.flatten ++ [x]) := by
  intro bs
  induction bs with
  | nil => intro k hk; cases hk
  | cons b rest ih =>
    intro k hk
    cases k with
    | zero =>
      simp only [List.set_cons_zero, List.getD_cons_zero, List.flatten_cons, List.append_assoc]
      exact (@List.perm_append_comm _ [x] rest.flatten).append_left b
    | succ m =>
      simp only [List.set_cons_succ, List.getD_cons_succ, List.flatten_cons, List.append_assoc]
      have hm : m < rest.length := Nat.lt_of_succ_lt_succ hk
      exact (ih m hm).append_left b

lemma assignAux_flatten (w : Nat) (hw : 0 < w) :
    ∀ (l : List Char) (idx : Nat) (bs : List (List Char)), bs.length = w →
      ((assignAux w idx l bs).flatten).Perm (bs.flatten ++ l) := by
  intro l
  induction l with
  | nil =>
    intro idx bs _
    simp [assignAux]
  | cons c rest ih =>
    intro idx bs hbs
    rw [assignAux]
    have hk : idx % w < bs.length := by
      rw [hbs]
      exact Nat.mod_lt _ hw
    have h1 := ih (idx + 1) (bs.set (idx % w) (bs.getD (idx % w) [] ++ [c]))
      (by rw [List.length_set, hbs])
    have h2 := (flatten_set_getD c bs (idx % w) hk).append_right rest
    refine h1.trans (h2.trans ?_)
    rw [List.append_assoc]
    exact List.Perm.refl _

/-- The concatenation of all round-robin buckets is a permutation of the
alphabet: every character lands in exactly one bucket. -/
lemma assignBuckets_flatten (w : Nat) (hw : 0 < w) (A : List Char) :
    ((assignBuckets w A).flatten).Perm A := by
  have hrep : (List.replicate w ([] : List Char)).flatten = [] := by
    induction w with
    | zero => rfl
    | succ m ih => simp [List.replicate_succ, ih]
  have h := assignAux_flatten w hw A 0 (List.replicate w []) (List.length_replicate ..)
  rw [assignBuckets]
  rw [hrep] at h
  simpa using h

lemma flatten_filter_nonempty :
    ∀ L : List (List Char), ((L.filter fun b => !b.isEmpty).flatten) = L.flatten := by
  intro L
  induction L with
  | nil => rfl
  | cons b rest ih =>
    by_cases hb : b.isEmpty
    · have hb' : b = [] := List.isEmpty_iff.mp hb
      rw [List.filter_cons_of_neg (by simp [hb]), List.flatten_cons, hb', ih,
        List.nil_append]
    · rw [List.filter_cons_of_pos (by simp [hb]), List.flatten_cons, List.flatten_cons, ih]

/-- The concatenation of the candidate lists of all started workers, in
worker start order. -/
def allCandidates (w : Nat) (A : List Char) (n : Nat) : List (List Char) :=
  (startedBuckets w A).flatMap fun b => enumCandidates b A n

lemma flatMap_flatten_enum (A : List Char) (n : Nat) :
    ∀ L : List (List Char),
      (L.flatMap fun b => enumCandidates b A n) = enumCandidates L.flatten A n := by
  intro L
  induction L with
  | nil => rfl
  | cons b rest ih =>
    rw [List.flatMap_cons, List.flatten_cons, ih]
    simp only [show ∀ fs, enumCandidates fs A n =
      fs.flatMap fun first => (kpow A n).map fun t => first :: t from fun _ => rfl]
    rw [List.flatMap_append]

lemma enumCandidates_perm (A : List Char) (n : Nat) {fs fs' : List Char}
    (h : fs.Perm fs') : (enumCandidates fs A n).Perm (enumCandidates fs' A n) :=
  h.flatMap_right _

/-- The candidates of all started workers together are exactly the full
Cartesian product `A ^ (n+1)`, up to order. -/
lemma allCandidates_perm (w : Nat) (hw : 0 < w) (A : List Char) (n : Nat) :
    (allCandidates w A n).Perm (kpow A (n + 1)) := by
  rw [allCandidates, flatMap_flatten_enum, startedBuckets, flatten_filter_nonempty]
  have h := enumCandidates_perm A n (assignBuckets_flatten w hw A)
  exact h.trans (by rw [show enumCandidates A A n = kpow A (n + 1) from rfl])

lemma allCandidates_nodup (w : Nat) (hw : 0 < w) (A : List Char) (hA : A.Nodup) (n : Nat) :
    (allCandidates w A n).Nodup :=
  ((allCandidates_perm w hw A n).nodup_iff).mpr (kpow_nodup A hA (n + 1))

/-- C1: for every worker count `w ≥ 1` the round-robin partitioning puts
each character of the alphabet into exactly one bucket (the concatenation
of all buckets is a permutation of the alphabet, with no character missing
or duplicated), workers with empty buckets are skipped (every started
bucket is nonempty), and the candidates enumerated by the started workers
taken together are exactly the full Cartesian product `A^(n+1)` for
passwords of length `n+1`, each candidate produced exactly once. -/
theorem C1_partition_exhaustive (A : List Char) (w n : Nat) (hw : 1 ≤ w) (hA : A.Nodup) :
    ((assignBuckets w A).flatten).Perm A ∧
    (∀ b ∈ startedBuckets w A, b ≠ []) ∧
    (allCandidates w A n).Perm (kpow A (n + 1)) ∧
    (allCandidates w A n).Nodup := by
  refine ⟨assignBuckets_flatten w hw A, ?_, allCandidates_perm w hw A n,
    allCandidates_nodup w hw A hA n⟩
  intro b hb
  rw [startedBuckets] at hb
  have h := List.of_mem_filter hb
  simpa [List.isEmpty_iff] using h

theorem C1_partition_exhaustive_witness :
    (1 ≤ 2 ∧ (['a','b','c'] : List Char).Nodup) ∧
    (((assignBuckets 2 ['a','b','c']).flatten).Perm ['a','b','c'] ∧
     (∀ b ∈ startedBuckets 2 ['a','b','c'], b ≠ []) ∧
     (allCandidates 2 ['a','b','c'] 1).Perm (kpow ['a','b','c'] 2) ∧
     (allCandidates 2 ['a','b','c'] 1).Nodup) :=
  ⟨⟨by decide, by decide⟩, C1_partition_exhaustive ['a','b','c'] 2 1 (by decide) (by decide)⟩

/-- C2: a worker that never observes the cancellation signal tries the
candidates of its partition in strict lexicographic order (its tried list
is an initial segment of the sorted enumeration of its partition); if it
reports `Found p`, then `p` is the last candidate tried, no earlier tried
candidate verified successfully (the worker stops at the first match), and
the matching attempt itself is counted (the reported deltas sum to the
number of candidates tried, the match included). -/
theorem C2_lex_first_match (z : List Char → ReadResult) (b A : List Char) (n re : Nat)
    (hb : b.Sorted (· < ·)) (hA : A.Sorted (· < ·)) :
    (∃ l₂, (workerRun true z (fun _ => false) b A n re).tried ++ l₂ =
      enumCandidates b A n) ∧
    (workerRun true z (fun _ => false) b A n re).tried.Sorted (List.Lex (· < ·)) ∧
    ∀ p, (workerRun true z (fun _ => false) b A n re).outcome = some (.found p) →
      z p = .success ∧
      (workerRun true z (fun _ => false) b A n re).tried.getLast? = some p ∧
      (∀ q ∈ (workerRun true z (fun _ => false) b A n re).tried.dropLast,
        z q ≠ .success) ∧
      (workerRun true z (fun _ => false) b A n re).deltas.sum =
        (workerRun true z (fun _ => false) b A n re).tried.length := by
  have hcons := worker_conservation z b A n re
  rw [workerRun_no_cancel] at hcons ⊢
  cases h : runFlat z re (enumCandidates b A n) ⟨0, [], []⟩ with
  | inl s' =>
    obtain ⟨h1, -, -⟩ := runFlat_inl z re _ _ _ h
    rw [List.nil_append] at h1
    refine ⟨⟨[], by simp [h1]⟩, ?_, ?_⟩
    · show s'.tried.Sorted (List.Lex (· < ·))
      rw [h1]
      exact enumCandidates_sorted b A n hb hA
    · intro p hp
      cases hp
  | inr out =>
    obtain ⟨l₁, pwd, l₂, e1, e2, -, -, -, e6, e7⟩ := runFlat_inr z re _ _ _ h
    rw [List.nil_append] at e2
    rw [h] at hcons
    have hsub : out.tried.Sublist (enumCandidates b A n) := by
      rw [e1, e2]
      exact (List.sublist_append_left [pwd] l₂).append_left l₁
    refine ⟨⟨l₂, by rw [e1, e2]; simp⟩, ?_, ?_⟩
    · exact List.Pairwise.sublist hsub (enumCandidates_sorted b A n hb hA)
    · intro p hp
      rcases e7 with ⟨hz1, hz2⟩ | ⟨hz1, hz2⟩
      · rw [hz2] at hp
        have hpw : pwd = p := by
          injection hp with hp'
          injection hp'
        subst hpw
        refine ⟨hz1, ?_, ?_, hcons⟩
        · rw [e2]
          exact List.getLast?_concat ..
        · intro q hq
          rw [e2, List.dropLast_concat] at hq
          rcases e6 q hq with h' | h' <;> rw [h'] <;> intro h'' <;> cases h''
      · rw [hz2] at hp
        cases hp

/-- The verifier of the spec's concrete scenario: only `"bc"` opens the
archive, every other candidate raises `RuntimeError`. -/
def zScenario : List Char → ReadResult :=
  fun p => if p = ['b','c'] then .success else .runtimeError

theorem C2_lex_first_match_witness :
    (List.Sorted (· < ·) ['a','b','c'] ∧
     workerRun true zScenario (fun _ => false) ['a','b','c'] ['a','b','c'] 1 100000 =
       ⟨[6], some (.found ['b','c']), true,
        [['a','a'],['a','b'],['a','c'],['b','a'],['b','b'],['b','c']], []⟩) ∧
    ((∃ l₂,
        (workerRun true zScenario (fun _ => false) ['a','b','c'] ['a','b','c'] 1 100000).tried
          ++ l₂ = enumCandidates ['a','b','c'] ['a','b','c'] 1) ∧
     (workerRun true zScenario (fun _ => false)
        ['a','b','c'] ['a','b','c'] 1 100000).tried.Sorted (List.Lex (· < ·)) ∧
     ∀ p, (workerRun true zScenario (fun _ => false)
         ['a','b','c'] ['a','b','c'] 1 100000).outcome = some (.found p) →
       zScenario p = .success ∧
       (workerRun true zScenario (fun _ => false)
         ['a','b','c'] ['a','b','c'] 1 100000).tried.getLast? = some p ∧
       (∀ q ∈ (workerRun true zScenario (fun _ => false)
           ['a','b','c'] ['a','b','c'] 1 100000).tried.dropLast, zScenario q ≠ .success) ∧
       (workerRun true zScenario (fun _ => false)
           ['a','b','c'] ['a','b','c'] 1 100000).deltas.sum =
         (workerRun true zScenario (fun _ => false)
           ['a','b','c'] ['a','b','c'] 1 100000).tried.length) :=
  ⟨⟨by decide, by decide⟩,
   C2_lex_first_match zScenario ['a','b','c'] ['a','b','c'] 1 100000 (by decide) (by decide)⟩

/-- When no verification ever succeeds or hits the unsupported scheme, no
worker sets the event, so under the modelled schedule every started worker
runs with the never-set oracle. -/
lemma runStarted_no_evt (z : List Char → ReadResult) (re : Nat) (A : List Char) (n : Nat)
    (hz : ∀ p, z p = .runtimeError ∨ z p = .otherError) :
    ∀ bs, runStarted z re A n bs false =
      bs.map fun b => workerRun true z (fun _ => false) b A n re := by
  intro bs
  induction bs with
  | nil => rfl
  | cons b rest ih =>
    rw [runStarted, List.map_cons]
    have hevt : (workerRun true z (fun _ => false) b A n re).evtSet = false :=
      (worker_exhaust z b A n re hz).2.1
    rw [hevt]
    exact congrArg _ ih

lemma startedBuckets_ne_nil (w : Nat) (hw : 0 < w) (A : List Char) (hA : A ≠ []) :
    startedBuckets w A ≠ [] := by
  intro h
  have hfl : ((startedBuckets w A).flatten) = [] := by rw [h]; rfl
  rw [startedBuckets, flatten_filter_nonempty] at hfl
  have hperm := assignBuckets_flatten w hw A
  rw [hfl] at hperm
  exact hA (hperm.symm.eq_nil)

/-- C3: when no candidate matches and no unsupported or fatal condition
occurs (every `zf.read` raises `RuntimeError` or a skipped error), every
candidate of the full product is verified exactly once across the started
workers, the accumulated total equals `|A|^(n+1)`, `unlock_zip` returns
`None`, and the reported failure is the exhaustion message, which differs
from the unsupported-scheme and worker-error messages. -/
theorem C3_exhaustion (entries : List (List Char × Nat)) (z : List Char → ReadResult)
    (w re n : Nat) (A : List Char) (t : List Char) (hw : 1 ≤ w) (hA : A.Nodup)
    (ht : pickSmallestMember entries = some t) (ht' : t ≠ [])
    (hz : ∀ p, z p = .runtimeError ∨ z p = .otherError) :
    unlockModel (some entries) z w re A n =
      Except.ok ⟨none, .failExhausted, none, false, A.length ^ (n + 1),
        (startedBuckets w A).length⟩ ∧
    (((startedOutputs z re A n w).map fun o => o.tried).flatten).Perm (kpow A (n + 1)) ∧
    (((startedOutputs z re A n w).map fun o => o.tried).flatten).Nodup ∧
    FinalReport.failExhausted ≠ FinalReport.failUnsupported ∧
    FinalReport.failExhausted ≠ FinalReport.failError := by
  have houts : startedOutputs z re A n w =
      (startedBuckets w A).map fun b => workerRun true z (fun _ => false) b A n re :=
    runStarted_no_evt z re A n hz (startedBuckets w A)
  have htried : (startedOutputs z re A n w).map (fun o => o.tried) =
      (startedBuckets w A).map fun b => enumCandidates b A n := by
    rw [houts, List.map_map]
    exact List.map_congr_left fun b _ => (worker_exhaust z b A n re hz).2.2.1
  have hflat : ((startedOutputs z re A n w).map fun o => o.tried).flatten =
      allCandidates w A n := by
    rw [htried, allCandidates, List.flatMap_def]
  have hperm := allCandidates_perm w hw A n
  have hnodup := allCandidates_nodup w hw A hA n
  have htot : ((startedOutputs z re A n w).map fun o => o.deltas.sum).sum =
      A.length ^ (n + 1) := by
    have h1 : (startedOutputs z re A n w).map (fun o => o.deltas.sum) =
        (startedBuckets w A).map fun b => (enumCandidates b A n).length := by
      rw [houts, List.map_map]
      exact List.map_congr_left fun b _ => (worker_exhaust z b A n re hz).2.2.2.1
    have h2 : ((startedBuckets w A).map fun b => (enumCandidates b A n).length).sum =
        (allCandidates w A n).length := by
      rw [allCandidates, List.length_flatMap]
      simp only [Function.comp_def]
    rw [h1, h2, hperm.length_eq, kpow_length]
  have hstat : (startedOutputs z re A n w).findSome? (fun o => o.outcome) = none := by
    refine findSome?_eq_none_of_all _ _ fun o ho => ?_
    rw [houts] at ho
    obtain ⟨b, -, rfl⟩ := List.mem_map.mp ho
    exact (worker_exhaust z b A n re hz).1
  refine ⟨?_, by rw [hflat]; exact hperm, by rw [hflat]; exact hnodup, by decide, by decide⟩
  simp only [unlockModel, ht, if_neg ht', hstat, htot]

/-- A verifier for which every candidate is a wrong password. -/
def zMismatch : List Char → ReadResult := fun _ => .runtimeError

theorem C3_exhaustion_witness :
    (1 ≤ 2 ∧ (['a','b','c'] : List Char).Nodup ∧
     pickSmallestMember [(['k'], 5)] = some ['k'] ∧ (['k'] : List Char) ≠ []) ∧
    (unlockModel (some [(['k'], 5)]) zMismatch 2 100000 ['a','b','c'] 1 =
       Except.ok ⟨none, .failExhausted, none, false, (['a','b','c'] : List Char).length ^ (1 + 1),
         (startedBuckets 2 ['a','b','c']).length⟩ ∧
     (((startedOutputs zMismatch 100000 ['a','b','c'] 1 2).map fun o =>
         o.tried).flatten).Perm (kpow ['a','b','c'] (1 + 1)) ∧
     (((startedOutputs zMismatch 100000 ['a','b','c'] 1 2).map fun o =>
         o.tried).flatten).Nodup ∧
     FinalReport.failExhausted ≠ FinalReport.failUnsupported ∧
     FinalReport.failExhausted ≠ FinalReport.failError) :=
  ⟨⟨by decide, by decide, by decide, by decide⟩,
   C3_exhaustion [(['k'], 5)] zMismatch 2 100000 1 ['a','b','c'] ['k']
     (by decide) (by decide) (by decide) (by decide) (fun _ => Or.inl rfl)⟩

/-- Under the modelled schedule, once the event is set every remaining
worker observes it at its first check and produces nothing. -/
lemma runStarted_cancelled (z : List Char → ReadResult) (re : Nat) (A : List Char) (n : Nat) :
    ∀ bs, runStarted z re A n bs true =
      bs.map fun _ => (⟨[], none, false, [], []⟩ : WOut) := by
  intro bs
  induction bs with
  | nil => rfl
  | cons b rest ih =>
    simp only [runStarted, worker_cancelled, List.map_cons, Bool.true_or]
    exact congrArg _ ih

/-- A worker whose very first `zf.read` raises `NotImplementedError`
flushes the single buffered attempt, emits one `UNSUPPORTED` outcome, sets
the event, and tries exactly one candidate. -/
lemma worker_unsupported_first (z : List Char → ReadResult) (b A : List Char) (n re : Nat)
    (hb : b ≠ []) (hA : A ≠ []) (hz : ∀ p, z p = .notImplemented) :
    ∃ c, workerRun true z (fun _ => false) b A n re =
      ⟨[1], some .unsupported, true, [c], []⟩ := by
  rw [workerRun_no_cancel]
  obtain ⟨f, bs, rfl⟩ := List.exists_cons_of_ne_nil hb
  obtain ⟨t0, ts, hts⟩ := List.exists_cons_of_ne_nil (kpow_ne_nil A hA n)
  refine ⟨f :: t0, ?_⟩
  have hrest : enumCandidates (f :: bs) A n =
      (f :: t0) :: (ts.map (fun t => f :: t) ++ enumCandidates bs A n) := by
    rw [show enumCandidates (f :: bs) A n =
        ((kpow A n).map fun t => f :: t) ++ enumCandidates bs A n from by
      rw [enumCandidates, List.flatMap_cons]; rfl]
    rw [hts, List.map_cons, List.cons_append]
  rw [hrest, runFlat]
  simp only [hz]
  by_cases h1 : (0 + 1) % re = 0
  · simp [h1]
  · simp [h1]

lemma startedBuckets_head_ne_nil (w : Nat) (A : List Char) (b : List Char)
    (bs : List (List Char)) (h : startedBuckets w A = b :: bs) : b ≠ [] := by
  have hb : b ∈ startedBuckets w A := by rw [h]; exact List.mem_cons_self ..
  rw [startedBuckets] at hb
  have h' := List.of_mem_filter hb
  simpa [List.isEmpty_iff] using h'

/-- C4: if every verification raises the unsupported-scheme condition (so
in particular the very first attempt does), the first started worker
flushes its buffered count of one attempt, exactly one `UNSUPPORTED`
outcome is produced for the whole run, the event is set, every other
worker stops without trying anything, the run reports the
unsupported-scheme failure, the accumulated total is exactly 1, and only
one candidate is ever tried. -/
theorem C4_unsupported_short_circuit (entries : List (List Char × Nat))
    (z : List Char → ReadResult) (w re n : Nat) (A : List Char) (t : List Char)
    (hw : 1 ≤ w) (hA : A ≠ []) (ht : pickSmallestMember entries = some t) (ht' : t ≠ [])
    (hz : ∀ p, z p = .notImplemented) :
    (∃ c rest, startedOutputs z re A n w =
        (⟨[1], some .unsupported, true, [c], []⟩ : WOut) :: rest ∧
        ∀ o ∈ rest, o = (⟨[], none, false, [], []⟩ : WOut)) ∧
    ((startedOutputs z re A n w).filterMap fun o => o.outcome) = [.unsupported] ∧
    unlockModel (some entries) z w re A n =
      Except.ok ⟨none, .failUnsupported, none, false, 1, (startedBuckets w A).length⟩ ∧
    (((startedOutputs z re A n w).map fun o => o.tried).flatten).length = 1 := by
  obtain ⟨b1, bs, hsb⟩ := List.exists_cons_of_ne_nil (startedBuckets_ne_nil w hw A hA)
  have hb1 : b1 ≠ [] := startedBuckets_head_ne_nil w A b1 bs hsb
  obtain ⟨c, hc⟩ := worker_unsupported_first z b1 A n re hb1 hA hz
  have houts : startedOutputs z re A n w =
      (⟨[1], some .unsupported, true, [c], []⟩ : WOut) ::
        (bs.map fun _ => (⟨[], none, false, [], []⟩ : WOut)) := by
    rw [startedOutputs, hsb, runStarted, hc]
    simp only [Bool.false_or]
    rw [runStarted_cancelled]
  have hnilFM : (List.filterMap (fun o => o.outcome)
      (bs.map fun _ => (⟨[], none, false, [], []⟩ : WOut))) = [] := by
    rw [List.filterMap_eq_nil_iff]
    intro o ho
    obtain ⟨x, -, rfl⟩ := List.mem_map.mp ho
    rfl
  have hnilTR : ((bs.map fun _ => (⟨[], none, false, [], []⟩ : WOut)).map
      fun o => o.tried).flatten = [] := by
    rw [List.flatten_eq_nil_iff]
    intro l hl
    rw [List.map_map] at hl
    obtain ⟨y, -, rfl⟩ := List.mem_map.mp hl
    rfl
  have htot1 : ((startedOutputs z re A n w).map fun o => o.deltas.sum).sum = 1 := by
    rw [houts, List.map_cons]
    simp only [List.sum_cons]
    have hz0 : ((bs.map fun _ => (⟨[], none, false, [], []⟩ : WOut)).map
        fun o => o.deltas.sum).sum = 0 := by
      refine List.sum_eq_zero fun x hx => ?_
      rw [List.map_map] at hx
      obtain ⟨y, -, rfl⟩ := List.mem_map.mp hx
      rfl
    rw [hz0]
    rfl
  have hstat : (startedOutputs z re A n w).findSome? (fun o => o.outcome) =
      some Outcome.unsupported := by
    rw [houts, List.findSome?_cons]
  refine ⟨⟨c, bs.map fun _ => (⟨[], none, false, [], []⟩ : WOut), houts, ?_⟩, ?_, ?_, ?_⟩
  · intro o ho
    obtain ⟨x, -, rfl⟩ := List.mem_map.mp ho
    rfl
  · rw [houts, List.filterMap_cons]
    simp only [hnilFM]
  · simp only [unlockModel, ht, if_neg ht', hstat, htot1]
  · rw [houts, List.map_cons, List.flatten_cons, hnilTR]
    rfl

/-- A verifier for which every read raises `NotImplementedError`. -/
def zUnsupported : List Char → ReadResult := fun _ => .notImplemented

theorem C4_unsupported_short_circuit_witness :
    (1 ≤ 3 ∧ (['a','b','c'] : List Char) ≠ [] ∧
     pickSmallestMember [(['k'], 5)] = some ['k'] ∧ (['k'] : List Char) ≠ []) ∧
    ((∃ c rest, startedOutputs zUnsupported 100000 ['a','b','c'] 1 3 =
        (⟨[1], some .unsupported, true, [c], []⟩ : WOut) :: rest ∧
        ∀ o ∈ rest, o = (⟨[], none, false, [], []⟩ : WOut)) ∧
     ((startedOutputs zUnsupported 100000 ['a','b','c'] 1 3).filterMap fun o => o.outcome) =
       [.unsupported] ∧
     unlockModel (some [(['k'], 5)]) zUnsupported 3 100000 ['a','b','c'] 1 =
       Except.ok ⟨none, .failUnsupported, none, false, 1,
         (startedBuckets 3 ['a','b','c']).length⟩ ∧
     (((startedOutputs zUnsupported 100000 ['a','b','c'] 1 3).map fun o =>
         o.tried).flatten).length = 1) :=
  ⟨⟨by decide, by decide, by decide, by decide⟩,
   C4_unsupported_short_circuit [(['k'], 5)] zUnsupported 3 100000 1 ['a','b','c'] ['k']
     (by decide) (by decide) (by decide) (by decide) (fun _ => rfl)⟩

/-- C5 counterexample: a worker stopped by the cancellation signal drops
its buffered attempt count.  With a set-once signal first observed set at
the worker's third check (`fun k => decide (2 ≤ k)` is monotone), the
worker has made one verification call (candidate `"aa"`) but emitted no
delta: the sum of its emitted ProgressDeltas (0) differs from its number
of verification calls (1). -/
theorem C5_cancel_drop_counterexample :
    (workerRun true zMismatch (fun k => decide (2 ≤ k))
        ['a'] ['a','b'] 1 100000).deltas.sum ≠
      (workerRun true zMismatch (fun k => decide (2 ≤ k))
        ['a'] ['a','b'] 1 100000).tried.length := by
  decide

lemma runStarted_conservation (z : List Char → ReadResult) (re : Nat) (A : List Char)
    (n : Nat) :
    ∀ (bs : List (List Char)) (c : Bool), ∀ o ∈ runStarted z re A n bs c,
      o.deltas.sum = o.tried.length := by
  intro bs
  induction bs with
  | nil => intro c o ho; cases ho
  | cons b rest ih =>
    intro c o ho
    rw [runStarted] at ho
    rcases List.mem_cons.mp ho with rfl | ho'
    · cases c
      · exact worker_conservation z b A n re
      · rw [worker_cancelled]
        rfl
    · exact ih _ o ho'

lemma total_eq_sum_tried (z : List Char → ReadResult) (re : Nat) (A : List Char)
    (n w : Nat) :
    ((startedOutputs z re A n w).map fun o => o.deltas.sum).sum =
      ((startedOutputs z re A n w).map fun o => o.tried.length).sum := by
  have h : (startedOutputs z re A n w).map (fun o => o.deltas.sum) =
      (startedOutputs z re A n w).map fun o => o.tried.length :=
    List.map_congr_left fun o ho => runStarted_conservation z re A n _ false o ho
  rw [h]

/-- C5 (amended): for a worker that terminates on its own (match,
unsupported scheme, or partition exhaustion — it never observes the
cancellation signal), the sum of its ProgressDeltas equals its exact
number of verification calls; and under the modelled schedule the
orchestrator's accumulated total equals the total number of verification
calls the started workers reported.  (A worker stopped by the cancellation
signal may drop its final buffered count, see the counterexample.) -/
theorem C5_progress_conservation (z : List Char → ReadResult) (b A : List Char)
    (n re : Nat) :
    ((workerRun true z (fun _ => false) b A n re).deltas.sum =
      (workerRun true z (fun _ => false) b A n re).tried.length) ∧
    ∀ (entries : List (List Char × Nat)) (w : Nat) (r : UnlockResult) (t : List Char),
      pickSmallestMember entries = some t → t ≠ [] →
      unlockModel (some entries) z w re A n = Except.ok r →
      r.totalAttempts = ((startedOutputs z re A n w).map fun o => o.tried.length).sum := by
  refine ⟨worker_conservation z b A n re, ?_⟩
  intro entries w r t ht ht' hr
  simp only [unlockModel, ht, if_neg ht'] at hr
  have htot := total_eq_sum_tried z re A n w
  split at hr
  · split at hr
    · cases hr
      exact htot
    · cases hr
      exact htot
  · cases hr
    exact htot
  · cases hr
    exact htot
  · cases hr
    exact htot

theorem C5_progress_conservation_witness :
    ((workerRun true zScenario (fun _ => false)
        ['a','b','c'] ['a','b','c'] 1 100000).deltas.sum =
      (workerRun true zScenario (fun _ => false)
        ['a','b','c'] ['a','b','c'] 1 100000).tried.length) ∧
    (pickSmallestMember [(['k'], 5)] = some ['k'] ∧ (['k'] : List Char) ≠ []) ∧
    ∃ r, unlockModel (some [(['k'], 5)]) zScenario 1 100000 ['a','b','c'] 1 =
        Except.ok r ∧
      r.totalAttempts = ((startedOutputs zScenario 100000 ['a','b','c'] 1 1).map fun o =>
        o.tried.length).sum :=
  ⟨(C5_progress_conservation zScenario ['a','b','c'] ['a','b','c'] 1 100000).1,
   ⟨by decide, by decide⟩,
   ⟨⟨some ['b','c'], .success ['b','c'], some ['b','c','\n'], true, 6, 1⟩, rfl,
    (C5_progress_conservation zScenario ['a','b','c'] ['a','b','c'] 1 100000).2
      [(['k'], 5)] 1 _ ['k'] (by decide) (by decide) rfl⟩⟩

/-- C6: every worker checks the shared cancellation signal before each
verification call, so with a set-once signal observed set from the
worker's `N`-th check onward the worker makes at most `N` verification
calls in total — it never verifies after observing the signal set; and a
worker that stops because it observed the signal emits no Outcome: any
Outcome it does emit is caused by the `zf.read` result on the last
candidate it tried (`Found` by a successful read, `Unsupported` by
`NotImplementedError`), never by cancellation. -/
theorem C6_cancel_stops_worker (z : List Char → ReadResult) (cancel : Nat → Bool)
    (b A : List Char) (n re N : Nat)
    (hmono : ∀ i j, i ≤ j → cancel i = true → cancel j = true)
    (hN : cancel N = true) :
    (workerRun true z cancel b A n re).tried.length ≤ N ∧
    ((workerRun true z cancel b A n re).outcome = none ∨
      ∃ p, p ≠ [] ∧ (workerRun true z cancel b A n re).tried.getLast? = some p ∧
        (((workerRun true z cancel b A n re).outcome = some (.found p) ∧
            z p = .success) ∨
         ((workerRun true z cancel b A n re).outcome = some .unsupported ∧
            z p = .notImplemented))) :=
  ⟨worker_tried_bound z cancel b A n re N hN, worker_outcome_cause z cancel b A n re⟩

theorem C6_cancel_stops_worker_witness :
    ((∀ i j, i ≤ j → (fun k => decide (1 ≤ k)) i = true →
        (fun k => decide (1 ≤ k)) j = true) ∧
     (fun k => decide (1 ≤ k)) 1 = true) ∧
    ((workerRun true zMismatch (fun k => decide (1 ≤ k))
        ['a'] ['a','b'] 1 100000).tried.length ≤ 1 ∧
     ((workerRun true zMismatch (fun k => decide (1 ≤ k))
         ['a'] ['a','b'] 1 100000).outcome = none ∨
       ∃ p, p ≠ [] ∧ (workerRun true zMismatch (fun k => decide (1 ≤ k))
           ['a'] ['a','b'] 1 100000).tried.getLast? = some p ∧
         (((workerRun true zMismatch (fun k => decide (1 ≤ k))
             ['a'] ['a','b'] 1 100000).outcome = some (.found p) ∧
            zMismatch p = .success) ∨
          ((workerRun true zMismatch (fun k => decide (1 ≤ k))
             ['a'] ['a','b'] 1 100000).outcome = some .unsupported ∧
            zMismatch p = .notImplemented)))) :=
  ⟨⟨fun i j hij hi => by
      simp only [decide_eq_true_eq] at hi ⊢
      omega,
    by decide⟩,
   C6_cancel_stops_worker zMismatch (fun k => decide (1 ≤ k)) ['a'] ['a','b'] 1 100000 1
     (fun i j hij hi => by
       simp only [decide_eq_true_eq] at hi ⊢
       omega)
     (by decide)⟩

lemma runStarted_mem_shape (z : List Char → ReadResult) (re : Nat) (A : List Char)
    (n : Nat) :
    ∀ (bs : List (List Char)) (c : Bool) (o : WOut), o ∈ runStarted z re A n bs c →
      ∃ b c', o = workerRun true z (fun _ => c') b A n re := by
  intro bs
  induction bs with
  | nil => intro c o ho; cases ho
  | cons b rest ih =>
    intro c o ho
    rw [runStarted] at ho
    rcases List.mem_cons.mp ho with rfl | ho'
    · exact ⟨b, c, rfl⟩
    · exact ih _ o ho'

/-- Any `FOUND` payload arriving on the result queue is a candidate of the
form `first :: tail`, hence a nonempty string. -/
lemma startedOutputs_found_ne_nil (z : List Char → ReadResult) (re : Nat) (A : List Char)
    (n w : Nat) (p : List Char)
    (h : ((startedOutputs z re A n w).findSome? fun o => o.outcome) = some (.found p)) :
    p ≠ [] := by
  obtain ⟨o, ho, hfo⟩ := findSome?_eq_some_mem _ _ _ h
  obtain ⟨b, c', rfl⟩ := runStarted_mem_shape z re A n _ _ o ho
  cases c'
  · rcases worker_outcome_cause z (fun _ => false) b A n re with hnone | ⟨q, hq, -, hcase⟩
    · rw [hnone] at hfo
      cases hfo
    · rcases hcase with ⟨ho', -⟩ | ⟨ho', -⟩
      · rw [ho'] at hfo
        injection hfo with h'
        injection h' with h''
        rw [← h'']
        exact hq
      · rw [ho'] at hfo
        injection hfo with h'
        cases h'
  · rw [worker_cancelled] at hfo
    cases hfo

/-- C7: when the run's status is `Found p`, `unlock_zip` writes exactly
the candidate followed by a newline to `password.txt`, extracts the whole
archive with that candidate, reports success and returns the candidate; in
every non-Found terminal case (unsupported scheme, worker error,
exhaustion) it returns `None`, writes no password file and extracts
nothing; and when the archive has no extractable entry it returns `None`
before starting any worker. -/
theorem C7_found_persist (entries : List (List Char × Nat)) (z : List Char → ReadResult)
    (w re n : Nat) (A : List Char) (t : List Char) (r : UnlockResult)
    (ht : pickSmallestMember entries = some t) (ht' : t ≠ [])
    (hr : unlockModel (some entries) z w re A n = Except.ok r) :
    (∀ p, ((startedOutputs z re A n w).findSome? fun o => o.outcome) = some (.found p) →
       r.ret = some p ∧ r.passwordFile = some (p ++ ['\n']) ∧ r.extracted = true ∧
       r.report = .success p) ∧
    ((∀ p, r.report ≠ FinalReport.success p) →
       r.ret = none ∧ r.passwordFile = none ∧ r.extracted = false) ∧
    (∀ entries2 : List (List Char × Nat), pickSmallestMember entries2 = none →
       unlockModel (some entries2) z w re A n =
         Except.ok ⟨none, .failNoEntry, none, false, 0, 0⟩) := by
  refine ⟨?_, ?_, ?_⟩
  · intro p hp
    have hpne := startedOutputs_found_ne_nil z re A n w p hp
    simp only [unlockModel, ht, if_neg ht', hp] at hr
    rw [if_neg (show ¬ p.isEmpty = true from by simpa [List.isEmpty_iff] using hpne)] at hr
    cases hr
    exact ⟨rfl, rfl, rfl, rfl⟩
  · intro hns
    simp only [unlockModel, ht, if_neg ht'] at hr
    split at hr
    · split at hr
      · cases hr
        exact ⟨rfl, rfl, rfl⟩
      · cases hr
        exact absurd rfl (hns _)
    · cases hr
      exact ⟨rfl, rfl, rfl⟩
    · cases hr
      exact ⟨rfl, rfl, rfl⟩
    · cases hr
      exact ⟨rfl, rfl, rfl⟩
  · intro entries2 h2
    simp only [unlockModel, h2]

theorem C7_found_persist_witness :
    (pickSmallestMember [(['k'], 5)] = some ['k'] ∧ (['k'] : List Char) ≠ [] ∧
     unlockModel (some [(['k'], 5)]) zScenario 1 100000 ['a','b','c'] 1 =
       Except.ok ⟨some ['b','c'], .success ['b','c'], some ['b','c','\n'], true, 6, 1⟩) ∧
    ((∀ p, ((startedOutputs zScenario 100000 ['a','b','c'] 1 1).findSome? fun o =>
         o.outcome) = some (.found p) →
       (⟨some ['b','c'], .success ['b','c'], some ['b','c','\n'], true, 6, 1⟩ :
           UnlockResult).ret = some p ∧
       (⟨some ['b','c'], .success ['b','c'], some ['b','c','\n'], true, 6, 1⟩ :
           UnlockResult).passwordFile = some (p ++ ['\n']) ∧
       (⟨some ['b','c'], .success ['b','c'], some ['b','c','\n'], true, 6, 1⟩ :
           UnlockResult).extracted = true ∧
       (⟨some ['b','c'], .success ['b','c'], some ['b','c','\n'], true, 6, 1⟩ :
           UnlockResult).report = .success p) ∧
     ((∀ p, (⟨some ['b','c'], .success ['b','c'], some ['b','c','\n'], true, 6, 1⟩ :
           UnlockResult).report ≠ FinalReport.success p) →
       (⟨some ['b','c'], .success ['b','c'], some ['b','c','\n'], true, 6, 1⟩ :
           UnlockResult).ret = none ∧
       (⟨some ['b','c'], .success ['b','c'], some ['b','c','\n'], true, 6, 1⟩ :
           UnlockResult).passwordFile = none ∧
       (⟨some ['b','c'], .success ['b','c'], some ['b','c','\n'], true, 6, 1⟩ :
           UnlockResult).extracted = false) ∧
     (∀ entries2 : List (List Char × Nat), pickSmallestMember entries2 = none →
       unlockModel (some entries2) zScenario 1 100000 ['a','b','c'] 1 =
         Except.ok ⟨none, .failNoEntry, none, false, 0, 0⟩)) :=
  ⟨⟨by decide, by decide, rfl⟩,
   C7_found_persist [(['k'], 5)] zScenario 1 100000 1 ['a','b','c'] ['k']
     ⟨some ['b','c'], .success ['b','c'], some ['b','c','\n'], true, 6, 1⟩
     (by decide) (by decide) rfl⟩

/-- The verifier of the C8 counterexample: the first candidate hits a
skipped (transient) error, every other candidate is a wrong password. -/
def zTransient : List Char → ReadResult :=
  fun p => if p = ['a','a'] then .otherError else .runtimeError

/-- C8 counterexample: on an error that is neither a password mismatch nor
the unsupported scheme, the worker does continue with the next candidate,
but it writes no log line at all (`_worker` contains no logging call), so
the claim that the worker logs the error is false. -/
theorem C8_no_log_counterexample :
    zTransient ['a','a'] = .otherError ∧
    (workerRun true zTransient (fun _ => false) ['a'] ['a','b'] 1 100000).tried =
      [['a','a'], ['a','b']] ∧
    (workerRun true zTransient (fun _ => false) ['a'] ['a','b'] 1 100000).outcome = none ∧
    (workerRun true zTransient (fun _ => false) ['a'] ['a','b'] 1 100000).logs = [] := by
  decide

/-- C8 (amended): a verification error that is neither a password mismatch
(`RuntimeError`) nor the unsupported scheme (`NotImplementedError`) is
skipped silently: the worker continues with the next candidate and never
aborts — with only mismatches and such errors it exhausts its entire
partition — emits no outcome, and writes no log line. -/
theorem C8_transient_skip (z : List Char → ReadResult) (b A : List Char) (n re : Nat)
    (hz : ∀ p, z p = .runtimeError ∨ z p = .otherError) :
    (workerRun true z (fun _ => false) b A n re).tried = enumCandidates b A n ∧
    (workerRun true z (fun _ => false) b A n re).outcome = none ∧
    (workerRun true z (fun _ => false) b A n re).logs = [] :=
  ⟨(worker_exhaust z b A n re hz).2.2.1, (worker_exhaust z b A n re hz).1,
   (worker_exhaust z b A n re hz).2.2.2.2⟩

theorem C8_transient_skip_witness :
    (∀ p, zTransient p = .runtimeError ∨ zTransient p = .otherError) ∧
    ((workerRun true zTransient (fun _ => false) ['a'] ['a','b'] 1 100000).tried =
      enumCandidates ['a'] ['a','b'] 1 ∧
     (workerRun true zTransient (fun _ => false) ['a'] ['a','b'] 1 100000).outcome = none ∧
     (workerRun true zTransient (fun _ => false) ['a'] ['a','b'] 1 100000).logs = []) :=
  have hz : ∀ p, zTransient p = .runtimeError ∨ zTransient p = .otherError := fun p => by
    by_cases h : p = ['a','a']
    · exact Or.inr (by simp [zTransient, h])
    · exact Or.inl (by simp [zTransient, h])
  ⟨hz, C8_transient_skip zTransient ['a'] ['a','b'] 1 100000 hz⟩

/-- C9 counterexample: an archive that exists but contains no extractable
entry is a setup error by the claim, yet the process exits 0: `unlock_zip`
merely logs the error and returns `None`, and the `__main__` block ignores
the return value, so the interpreter exits normally. -/
theorem C9_empty_archive_exit0_counterexample :
    pickSmallestMember ([] : List (List Char × Nat)) = none ∧
    mainModel (some []) zMismatch 1 100000 ['a','b'] 1 = 0 := by
  constructor
  · decide
  · rfl

/-- C9 (amended): the process exits 0 on every normal completion of
`unlock_zip` — including the no-extractable-entry setup error, which is
logged, returns `None`, and fails fast with no worker started — and exits
non-zero (1) only when an exception escapes `unlock_zip`, as for a missing
archive file. -/
theorem C9_exit_codes (z : List Char → ReadResult) (w re n : Nat) (A : List Char) :
    mainModel none z w re A n = 1 ∧
    (∀ entries, mainModel (some entries) z w re A n = 0) ∧
    (∀ entries, pickSmallestMember entries = none →
      unlockModel (some entries) z w re A n =
        Except.ok ⟨none, .failNoEntry, none, false, 0, 0⟩) := by
  refine ⟨rfl, ?_, ?_⟩
  · intro entries
    have hok : ∃ r, unlockModel (some entries) z w re A n = Except.ok r := by
      cases hp : pickSmallestMember entries with
      | none =>
        exact ⟨⟨none, .failNoEntry, none, false, 0, 0⟩, by simp [unlockModel, hp]⟩
      | some t =>
        by_cases ht : t = []
        · exact ⟨⟨none, .failNoEntry, none, false, 0, 0⟩, by simp [unlockModel, hp, ht]⟩
        · simp only [unlockModel, hp, if_neg ht]
          split
          · split
            · exact ⟨_, rfl⟩
            · exact ⟨_, rfl⟩
          · exact ⟨_, rfl⟩
          · exact ⟨_, rfl⟩
          · exact ⟨_, rfl⟩
    obtain ⟨r, hr⟩ := hok
    rw [mainModel, hr]
  · intro entries h2
    simp only [unlockModel, h2]

theorem C9_exit_codes_witness :
    (mainModel none zMismatch 1 100000 ['a','b'] 1 = 1 ∧
     (∀ entries, mainModel (some entries) zMismatch 1 100000 ['a','b'] 1 = 0) ∧
     (∀ entries, pickSmallestMember entries = none →
       unlockModel (some entries) zMismatch 1 100000 ['a','b'] 1 =
         Except.ok ⟨none, .failNoEntry, none, false, 0, 0⟩)) ∧
    (pickSmallestMember ([(['d','/'], 0)] : List (List Char × Nat)) = none ∧
     unlockModel (some [(['d','/'], 0)]) zMismatch 1 100000 ['a','b'] 1 =
       Except.ok ⟨none, .failNoEntry, none, false, 0, 0⟩) :=
  ⟨C9_exit_codes zMismatch 1 100000 1 ['a','b'],
   by decide,
   (C9_exit_codes zMismatch 1 100000 1 ['a','b']).2.2 [(['d','/'], 0)] (by decide)⟩

lemma pickMin_mem {α : Type} :
    ∀ (rest : List (α × Nat)) (e : α × Nat),
      rest.foldl (fun best x => if x.2 < best.2 then x else best) e ∈ e :: rest := by
  intro rest
  induction rest with
  | nil => intro e; exact List.mem_cons_self ..
  | cons y ys ih =>
    intro e
    rw [List.foldl_cons]
    have h := ih (if y.2 < e.2 then y else e)
    rcases List.mem_cons.mp h with h' | h'
    · rw [h']
      by_cases hy : y.2 < e.2
      · rw [if_pos hy]
        exact List.mem_cons_of_mem _ (List.mem_cons_self ..)
      · rw [if_neg hy]
        exact List.mem_cons_self ..
    · exact List.mem_cons_of_mem _ (List.mem_cons_of_mem _ h')

lemma pickMin_le {α : Type} :
    ∀ (rest : List (α × Nat)) (e x : α × Nat), x ∈ e :: rest →
      (rest.foldl (fun best x => if x.2 < best.2 then x else best) e).2 ≤ x.2 := by
  intro rest
  induction rest with
  | nil =>
    intro e x hx
    rcases List.mem_cons.mp hx with rfl | h
    · exact Nat.le_refl _
    · cases h
  | cons y ys ih =>
    intro e x hx
    rw [List.foldl_cons]
    have hacc := ih (if y.2 < e.2 then y else e)
    have h1 := hacc _ (List.mem_cons_self ..)
    rcases List.mem_cons.mp hx with rfl | hx'
    · have h2 : (if y.2 < x.2 then y else x).2 ≤ x.2 := by
        by_cases hy : y.2 < x.2
        · rw [if_pos hy]
          exact Nat.le_of_lt hy
        · rw [if_neg hy]
      exact Nat.le_trans h1 h2
    · rcases List.mem_cons.mp hx' with rfl | hx''
      · have h2 : (if x.2 < e.2 then x else e).2 ≤ x.2 := by
          by_cases hy : x.2 < e.2
          · rw [if_pos hy]
          · rw [if_neg hy]
            exact Nat.le_of_not_lt hy
        exact Nat.le_trans h1 h2
      · exact hacc x (List.mem_cons_of_mem _ hx'')

/-- C10: `_pick_smallest_member` returns `None` exactly when the archive
has no entry whose name does not end with `'/'`; otherwise it returns the
name of such an entry of minimal file size, so a directory entry is never
selected as the verification target; and when it returns `None`,
`unlock_zip` logs the no-entry error and returns `None` with no worker
started. -/
theorem C10_pick_smallest (entries : List (List Char × Nat)) :
    (pickSmallestMember entries = none ↔
      entries.filter (fun e => !nameEndsWithSlash e.1) = []) ∧
    (∀ t, pickSmallestMember entries = some t →
      ∃ sz, (t, sz) ∈ entries ∧ nameEndsWithSlash t = false ∧
        ∀ e ∈ entries.filter (fun e => !nameEndsWithSlash e.1), sz ≤ e.2) ∧
    (pickSmallestMember entries = none →
      ∀ (z : List Char → ReadResult) (w re : Nat) (A : List Char) (n : Nat),
        unlockModel (some entries) z w re A n =
          Except.ok ⟨none, .failNoEntry, none, false, 0, 0⟩) := by
  refine ⟨?_, ?_, ?_⟩
  · cases hf : entries.filter (fun e => !nameEndsWithSlash e.1) with
    | nil => simp [pickSmallestMember, hf]
    | cons e rest => simp [pickSmallestMember, hf]
  · intro t hPick
    simp only [pickSmallestMember] at hPick
    cases hf : entries.filter (fun e => !nameEndsWithSlash e.1) with
    | nil =>
      rw [hf] at hPick
      cases hPick
    | cons e rest =>
      rw [hf] at hPick
      injection hPick with ht
      have hmem : rest.foldl (fun best x => if x.2 < best.2 then x else best) e ∈
          e :: rest := pickMin_mem rest e
      rw [← hf] at hmem
      refine ⟨(rest.foldl (fun best x => if x.2 < best.2 then x else best) e).2, ?_, ?_, ?_⟩
      · rw [← ht, Prod.mk.eta]
        exact List.mem_of_mem_filter hmem
      · have hp := List.of_mem_filter hmem
        rw [← ht]
        simpa using hp
      · intro e' he'
        exact pickMin_le rest e e' he'
  · intro h2 z w re A n
    simp only [unlockModel, h2]

theorem C10_pick_smallest_witness :
    (pickSmallestMember [(['d','/'], 0), (['b'], 7), (['a'], 3)] = some ['a'] ∧
     pickSmallestMember ([(['d','/'], 0)] : List (List Char × Nat)) = none) ∧
    (∃ sz, ((['a'] : List Char), sz) ∈ [(['d','/'], 0), (['b'], 7), (['a'], 3)] ∧
      nameEndsWithSlash ['a'] = false ∧
      ∀ e ∈ [(['d','/'], 0), (['b'], 7), (['a'], 3)].filter
          (fun e => !nameEndsWithSlash e.1), sz ≤ e.2) ∧
    unlockModel (some [(['d','/'], 0)]) zMismatch 1 100000 ['a','b'] 1 =
      Except.ok ⟨none, .failNoEntry, none, false, 0, 0⟩ :=
  ⟨⟨by decide, by decide⟩,
   (C10_pick_smallest [(['d','/'], 0), (['b'], 7), (['a'], 3)]).2.1 ['a'] (by decide),
   (C10_pick_smallest [(['d','/'], 0)]).2.2 (by decide) zMismatch 1 100000 ['a','b'] 1⟩
